import Mathlib

/-!
Verification development for the arXiv readability-analysis pipeline
(`pdf_to_text.py`).  Text is modelled as `List Char`.  Python regular
expressions are embedded as executable scanners that implement the exact
matching semantics of the concrete patterns appearing in the source
(lazy delimited blocks, word runs, fixed lookarounds).  Character
classes (`\d`, `\w`, `\s`) are modelled over their ASCII parts.
Scanners that consume a non-constant amount of input per step are
written with an explicit fuel argument so that every definition is
structurally recursive and kernel-evaluable; the public wrappers supply
fuel that is always sufficient.
-/

/-- ASCII whitespace, the ASCII part of Python's `\s` / `str.split()` /
`str.strip()` character class. -/
def isPySpace (c : Char) : Bool :=
  c = ' ' || c = '\t' || c = '\n' || c = '\x0b' || c = '\x0c' || c = '\r'

/-- ASCII part of Python's `\w`: letters, digits and underscore. -/
def isWordChar (c : Char) : Bool :=
  c.isAlpha || c.isDigit || c = '_'

/-- Python `str.strip()`: remove leading and trailing whitespace. -/
def pyStrip (l : List Char) : List Char :=
  ((l.dropWhile isPySpace).reverse.dropWhile isPySpace).reverse

/-- Fuel-driven `str.split()` (split on whitespace runs, dropping empties). -/
def pySplitF : Nat → List Char → List (List Char)
  | _, [] => []
  | 0, _ => []
  | fuel + 1, c :: rest =>
    if isPySpace c then pySplitF fuel rest
    else (c :: rest.takeWhile (fun x => !isPySpace x)) ::
      pySplitF fuel (rest.dropWhile (fun x => !isPySpace x))

/-- Python `str.split()` with no arguments, as used by `len(equation.split())`. -/
def pySplit (l : List Char) : List (List Char) := pySplitF l.length l

/-- Split a string at the first occurrence of `delim`: returns the part
strictly before the occurrence and the part strictly after it.  `none`
when `delim` does not occur.  This is the primitive both of
`str.replace` and of the lazy delimited-block regex scan. -/
def breakOn (delim : List Char) : List Char → Option (List Char × List Char)
  | [] => if delim.isPrefixOf ([] : List Char) then some ([], []) else none
  | c :: rest =>
    if delim.isPrefixOf (c :: rest) then some ([], (c :: rest).drop delim.length)
    else
      match breakOn delim rest with
      | some (pre, post) => some (c :: pre, post)
      | none => none

/-- Fuel-driven Python `str.replace(old, new)`: replaces every
non-overlapping occurrence of `old`, scanning left to right, without
rescanning the replacement text.  (`old` is never empty at the call
sites: it always contains the match delimiters.) -/
def replaceAllF : Nat → List Char → List Char → List Char → List Char
  | 0, _, _, s => s
  | fuel + 1, old, new, s =>
    match breakOn old s with
    | none => s
    | some (pre, post) => pre ++ new ++ replaceAllF fuel old new post

/-- Python `str.replace(old, new)` (all occurrences). -/
def replaceAll (old new s : List Char) : List Char :=
  replaceAllF (s.length + 1) old new s

/-- Fuel-driven scan of `re.finditer` for a lazy delimited pattern
`L(.*?)R` with `re.DOTALL`: successive non-overlapping matches, each
being the first occurrence of `L` followed by the closest occurrence of
`R`; returns the list of captured bodies. -/
def scanPairsF : Nat → List Char → List Char → List Char → List (List Char)
  | 0, _, _, _ => []
  | fuel + 1, L, R, s =>
    match breakOn L s with
    | none => []
    | some (_, afterL) =>
      match breakOn R afterL with
      | none => []
      | some (body, rest) => body :: scanPairsF fuel L R rest

/-- All matches of the lazy pattern `L(.*?)R` in `s` (captured bodies,
in order).  The full matched text of a body `b` is `L ++ b ++ R`. -/
def scanPairs (L R s : List Char) : List (List Char) :=
  scanPairsF (s.length + 1) L R s

/-- Decimal digit to character. -/
def digitChar : Nat → Char
  | 0 => '0' | 1 => '1' | 2 => '2' | 3 => '3' | 4 => '4'
  | 5 => '5' | 6 => '6' | 7 => '7' | 8 => '8' | 9 => '9'
  | _ => '*'

/-- Character to decimal digit (inverse of `digitChar` on digits). -/
def digitVal : Char → Nat
  | '0' => 0 | '1' => 1 | '2' => 2 | '3' => 3 | '4' => 4
  | '5' => 5 | '6' => 6 | '7' => 7 | '8' => 8 | '9' => 9
  | _ => 0

/-- Fuel-driven decimal rendering of a positive number. -/
def natCharsF : Nat → Nat → List Char
  | 0, _ => []
  | _, 0 => []
  | fuel + 1, n + 1 =>
    natCharsF fuel ((n + 1) / 10) ++ [digitChar ((n + 1) % 10)]

/-- Decimal rendering of a natural number, as Python's f-string does. -/
def natChars (n : Nat) : List Char :=
  if n = 0 then ['0'] else natCharsF n n

/-- The placeholder `f"[EQ_{eq_type}_{counter}]"`. -/
def phString (ty : List Char) (n : Nat) : List Char :=
  "[EQ_".toList ++ ty ++ "_".toList ++ natChars n ++ "]".toList

/-- One row of the equations list built by `preserve_equations`. -/
structure EqRecord where
  placeholder : List Char
  equation : List Char
  type : List Char
  length : Nat
deriving DecidableEq

/-- The body of `preserve_equations`' inner loop: for each captured body
(in snapshot order), strip it, build the placeholder from the running
counter, replace every occurrence of the full matched text in the
current text (Python `str.replace` semantics), and append the record. -/
def runMatches (L R ty : List Char) :
    List (List Char) → List Char × Nat × List EqRecord → List Char × Nat × List EqRecord
  | [], st => st
  | body :: rest, (t, c, recs) =>
    runMatches L R ty rest
      (replaceAll (L ++ body ++ R) (phString ty c) t, c + 1,
        recs ++ [⟨phString ty c, pyStrip body, ty, (pySplit (pyStrip body)).length⟩])

/-- One pass of `preserve_equations` for a single pattern: the matches
are taken on a snapshot of the text at the start of the pass (Python's
`re.finditer` iterates over the string passed to it, which is immutable),
while the text evolves through the substitutions. -/
def runPattern (L R ty : List Char) (st : List Char × Nat × List EqRecord) :
    List Char × Nat × List EqRecord :=
  runMatches L R ty (scanPairs L R st.1) st

/-- Model of `preserve_equations`: three passes in fixed order
(`\begin{equation}(.*?)\end{equation}`, `\\[(.*?)\\]`, `\$(.*?)\$`),
all with `re.DOTALL`, sharing one counter that starts at 1. -/
def preserve_equations (text : List Char) : List Char × List EqRecord :=
  let st1 := runPattern "\\begin\x7bequation\x7d".toList "\\end\x7bequation\x7d".toList
    "DISPLAY".toList (text, 1, [])
  let st2 := runPattern "\\[".toList "\\]".toList "DISPLAY".toList st1
  let st3 := runPattern "$".toList "$".toList "INLINE".toList st2
  (st3.1, st3.2.2)

/-- Matcher for the placeholder-stripping pattern `\[EQ_\w+_\d+\]` of
`calculate_readability`, tried at the current position: on success
returns the rest of the string after the match.  A match is the literal
`[EQ_`, then the maximal word-character run (which must decompose as
`\w+_\d+`, i.e. end in an underscore followed by one or more digits,
with a nonempty part before that underscore), then `]`. -/
def phInterior (W : List Char) : Bool :=
  let rw := W.reverse
  let d := rw.takeWhile Char.isDigit
  match rw.drop d.length with
  | '_' :: rest2 => !d.isEmpty && !rest2.isEmpty
  | _ => false

/-- Try to match `\[EQ_\w+_\d+\]` at the head of `s`. -/
def matchPh (s : List Char) : Option (List Char) :=
  if "[EQ_".toList.isPrefixOf s then
    let t := s.drop 4
    match t.dropWhile isWordChar with
    | ']' :: rest => if phInterior (t.takeWhile isWordChar) then some rest else none
    | _ => none
  else none

/-- Fuel-driven `re.sub(r'\[EQ_\w+_\d+\]', '', text)`: a single
left-to-right pass removing every match, without rescanning. -/
def stripPlaceholdersF : Nat → List Char → List Char
  | _, [] => []
  | 0, s => s
  | fuel + 1, c :: s =>
    match matchPh (c :: s) with
    | some rest => stripPlaceholdersF fuel rest
    | none => c :: stripPlaceholdersF fuel s

/-- Model of `re.sub(r'\[EQ_\w+_\d+\]', '', text)`. -/
def stripPlaceholders (t : List Char) : List Char :=
  stripPlaceholdersF t.length t

/-- Uppercase ASCII letter, the class `[A-Z]` of the sentence splitter. -/
def isUpperAZ (c : Char) : Bool := 'A' ≤ c && c ≤ 'Z'

/-- The fixed-width negative lookbehind `(?<!\b\w\w\.)` of the sentence
splitter, evaluated against the reversed prefix before the current
position: true when the three preceding characters are word, word, `.`
with a word boundary in front of them (suppressing the split). -/
def negLookbehind (rev : List Char) : Bool :=
  match rev with
  | c1 :: c2 :: c3 :: rest =>
    c1 = '.' && isWordChar c2 && isWordChar c3 &&
      (match rest with
       | [] => true
       | c4 :: _ => !isWordChar c4)
  | _ => false

/-- Does a match of `(?<!\b\w\w\.)(?<=[.!?])\s+(?=[A-Z])` start at the
current position?  `rev` is the reversed text before the position, `s`
the text from the position on.  On success returns the consumed
whitespace run and the rest (which starts with an uppercase letter).
Lazy/greedy subtleties vanish here: `\s+` must swallow the whole
whitespace run, since a shorter run is followed by whitespace, which is
not `[A-Z]`. -/
def splitDelimAt (rev s : List Char) : Option (List Char × List Char) :=
  match rev with
  | [] => none
  | p :: _ =>
    if (p = '.' || p = '!' || p = '?') && !negLookbehind rev then
      let run := s.takeWhile isPySpace
      let rest := s.dropWhile isPySpace
      if !run.isEmpty &&
          (match rest with
           | c :: _ => isUpperAZ c
           | [] => false) then
        some (run, rest)
      else none
    else none

/-- Fuel-driven `re.split` for the sentence pattern: walks the text one
position at a time, accumulating the current segment (reversed in
`cur`) and the reversed prefix `rev` used by the lookbehind, and cuts a
segment at every match. -/
def sentSplitF : Nat → List Char → List Char → List Char → List (List Char)
  | _, _, cur, [] => [cur.reverse]
  | 0, _, cur, s => [cur.reverse ++ s]
  | fuel + 1, rev, cur, c :: s =>
    match splitDelimAt rev (c :: s) with
    | some (run, rest) => cur.reverse :: sentSplitF fuel (run.reverse ++ rev) [] rest
    | none => sentSplitF fuel (c :: rev) (c :: cur) s

/-- Model of `re.split(r'(?<!\b\w\w\.)(?<=[.!?])\s+(?=[A-Z])', text)`. -/
def sentSplit (t : List Char) : List (List Char) :=
  sentSplitF t.length [] [] t

/-- Characters allowed inside a `\b[\w-]+\b` token: word characters and
the hyphen. -/
def isRunChar (c : Char) : Bool := isWordChar c || c = '-'

/-- Trim leading and trailing hyphens from a `[\w-]` run: the effect of
the two `\b` anchors with greedy backtracking. -/
def trimHyphens (l : List Char) : List Char :=
  ((l.dropWhile (fun c => c = '-')).reverse.dropWhile (fun c => c = '-')).reverse

/-- Fuel-driven `re.findall(r'\b[\w-]+\b', text)`: each maximal run of
word-or-hyphen characters yields one token, trimmed of leading and
trailing hyphens, provided a word character remains. -/
def findWordsF : Nat → List Char → List (List Char)
  | _, [] => []
  | 0, _ => []
  | fuel + 1, c :: s =>
    if isRunChar c then
      let w := trimHyphens (c :: s.takeWhile isRunChar)
      let rest := s.dropWhile isRunChar
      if w.isEmpty then findWordsF fuel rest else w :: findWordsF fuel rest
    else findWordsF fuel s

/-- Model of `re.findall(r'\b[\w-]+\b', text)`. -/
def findWords (t : List Char) : List (List Char) :=
  findWordsF t.length t

/-- The metrics of `calculate_readability` that the pipeline computes
itself.  The three `textstat` scores are opaque external library calls
on the same cleaned text and are not modelled. -/
structure Readability where
  word_count : Nat
  sentence_count : Nat
  avg_sentence_length : ℚ
deriving DecidableEq

/-- Model of `calculate_readability`: strip placeholders, split into sentences,
keep the candidates with `10 < len(s) < 500` (length measured before
stripping), tokenize words, and derive the counts and the average,
which is `0` when no sentence survives the filter. -/
def calculate_readability (text : List Char) : Readability :=
  let clean_text := stripPlaceholders text
  let sentences :=
    ((sentSplit clean_text).filter
      (fun s => decide (10 < s.length) && decide (s.length < 500))).map pyStrip
  let words := findWords clean_text
  { word_count := words.length
    sentence_count := sentences.length
    avg_sentence_length :=
      if sentences.isEmpty then 0 else (words.length : ℚ) / (sentences.length : ℚ) }

/-- Exactly `n` leading decimal digits: returns them and the rest. -/
def takeDigits : Nat → List Char → Option (List Char × List Char)
  | 0, s => some ([], s)
  | _ + 1, [] => none
  | n + 1, c :: s =>
    if c.isDigit then (takeDigits n s).map (fun p => (c :: p.1, p.2)) else none

/-- Pattern `\.pdf$`: the rest of the string is `.pdf` either at the very end or
followed by one final newline (Python's `$` also matches just before a
trailing newline). -/
def pdfEnd (s : List Char) : Bool :=
  s = ".pdf".toList || s = ".pdf\n".toList

/-- Pattern `(v\d+)?\.pdf$` against the whole rest of the string.  In the
version branch the greedy `\d+` must take the full digit run: stopping
earlier would leave a digit where `\.` needs a dot. -/
def matchTail (s : List Char) : Bool :=
  pdfEnd s ||
    (match s with
     | c :: r =>
       c = 'v' && !(r.takeWhile Char.isDigit).isEmpty && pdfEnd (r.dropWhile Char.isDigit)
     | [] => false)

/-- Try `(\d{4}\.\d{4,5})(v\d+)?\.pdf$` at the head of `s`; on success
return group 1.  `\d{4,5}` first tries five digits, then backtracks to
four. -/
def matchFour (d1 rest2 : List Char) : Option (List Char) :=
  match takeDigits 4 rest2 with
  | some (d2, rest3) =>
    if matchTail rest3 then some (d1 ++ '.' :: d2) else none
  | none => none

def matchAt (s : List Char) : Option (List Char) :=
  match takeDigits 4 s with
  | none => none
  | some (d1, rest) =>
    match rest with
    | c :: rest2 =>
      if c = '.' then
        match takeDigits 5 rest2 with
        | some (d2, rest3) =>
          if matchTail rest3 then some (d1 ++ '.' :: d2) else matchFour d1 rest2
        | none => matchFour d1 rest2
      else none
    | [] => none

/-- Model of `re.search`: leftmost position whose suffix matches. -/
def searchArxiv : List Char → Option (List Char)
  | [] => none
  | c :: rest =>
    match matchAt (c :: rest) with
    | some g => some g
    | none => searchArxiv rest

/-- Model of `extract_arxiv_id`: `re.search(r'(\d{4}\.\d{4,5})(v\d+)?\.pdf$', filename)`,
returning group 1 on success. -/
def extract_arxiv_id (filename : List Char) : Option (List Char) :=
  searchArxiv filename

/-- A well-formed optional version suffix `(v\d+)?`. -/
def IsVSuffix (vs : List Char) : Prop :=
  vs = [] ∨ ∃ ds, ds ≠ [] ∧ ds.all Char.isDigit = true ∧ vs = 'v' :: ds

/-- The admissible endings of the anchored `\.pdf$`. -/
def IsPdfTail (e : List Char) : Prop :=
  e = ".pdf".toList ∨ e = ".pdf\n".toList

/-- Declarative reading of the filename pattern: `fn` decomposes as an
arbitrary prefix, four digits, a dot, four or five digits, an optional
version suffix, and the anchored `.pdf` ending; `g` is the identifier
part of that decomposition. -/
def ValidCore (fn g : List Char) : Prop :=
  ∃ pre d1 d2 vs e,
    d1.length = 4 ∧ d1.all Char.isDigit = true ∧
    (d2.length = 4 ∨ d2.length = 5) ∧ d2.all Char.isDigit = true ∧
    IsVSuffix vs ∧ IsPdfTail e ∧
    fn = pre ++ d1 ++ '.' :: d2 ++ vs ++ e ∧
    g = d1 ++ '.' :: d2

/-- Strip a literal prefix. -/
def stripPre (p t : List Char) : Option (List Char) :=
  if p.isPrefixOf t then some (t.drop p.length) else none

/-- On the reversed filename, strip the reversed `.pdf` ending
(optionally preceded by the trailing newline). -/
def revPdf (t : List Char) : Option (List Char) :=
  match t with
  | c :: r => if c = '\n' then stripPre "fdp.".toList r else stripPre "fdp.".toList (c :: r)
  | [] => none

/-- Read the reversed four digits of the first identifier group. -/
def coreFrom (d2orig rest : List Char) : Option (List Char) :=
  match rest with
  | w :: x :: y :: z :: _ =>
    if [w, x, y, z].all Char.isDigit then some ([z, y, x, w] ++ '.' :: d2orig)
    else none
  | _ => none

/-- Deterministic right-to-left parse of the identifier pattern on the
reversed filename.  Any valid decomposition of a filename is forced to
agree with this parse, which is how uniqueness of the identifier
substring is established. -/
def coreParse2 (t2 : List Char) : Option (List Char) :=
  match t2 with
  | a :: b :: c :: d :: x :: rest =>
    if x = '.' then
      if [a, b, c, d].all Char.isDigit then coreFrom [d, c, b, a] rest else none
    else
      match rest with
      | y :: rest2 =>
        if y = '.' then
          if [a, b, c, d, x].all Char.isDigit then coreFrom [x, d, c, b, a] rest2 else none
        else none
      | [] => none
  | _ => none

/-- Strip the reversed optional version suffix, then parse the core. -/
def coreParse (t1 : List Char) : Option (List Char) :=
  let ds := t1.takeWhile Char.isDigit
  let t2 :=
    if (t1.drop ds.length).head? = some 'v' ∧ ds ≠ [] then (t1.drop ds.length).tail
    else t1
  coreParse2 t2

def coreOfRev (t : List Char) : Option (List Char) :=
  match revPdf t with
  | none => none
  | some t1 => coreParse t1

/-- The fields of the external catalog answer that the pipeline driver
reads (`primary_category` for the domain, the publication year). -/
structure ArxivMeta where
  primary_category : List Char
  year : Int
deriving DecidableEq

/-- Outcome of the external catalog call `next(arxiv.Search(...).results())`:
either a metadata bundle, or any raised error — including the
`StopIteration` of an empty result set. -/
inductive LookupOutcome where
  | ok (m : ArxivMeta)
  | err
deriving DecidableEq

/-- Model of `get_paper_metadata`: the bare `except:` turns every failure of the
external call into `None`; no error propagates to the caller. -/
def get_paper_metadata (outcome : LookupOutcome) : Option ArxivMeta :=
  match outcome with
  | .ok m => some m
  | .err => none

/-- The driver's metadata step:
`meta = get_paper_metadata(arxiv_id) if arxiv_id else None`. -/
def metaFor (arxivId : Option (List Char)) (lookup : List Char → LookupOutcome) :
    Option ArxivMeta :=
  match arxivId with
  | none => none
  | some i => get_paper_metadata (lookup i)

/-- The driver's record fields derived from the metadata:
`domain = meta['primary_category'].split('.')[0] if meta else 'Unknown'` and
`year = meta['published_date'].year if meta else datetime.now().year`. -/
def recordDomainYear (meta : Option ArxivMeta) (currentYear : Int) :
    List Char × Int :=
  (match meta with
   | some m => m.primary_category.takeWhile (fun c => c ≠ '.')
   | none => "Unknown".toList,
   match meta with
   | some m => m.year
   | none => currentYear)

/-- Interleave a list of segments with a separator (nonassociative
rendering of "the segments between the occurrences"). -/
def joinSep (sep : List Char) : List (List Char) → List Char
  | [] => []
  | [a] => a
  | a :: b :: l => a ++ sep ++ joinSep sep (b :: l)

/-- Occurrence of `pat` as a contiguous substring of `s`. -/
def ContainsSeg (pat s : List Char) : Prop :=
  ∃ u v, s = u ++ pat ++ v

/-- Decimal value of a digit string (proof-side inverse of `natChars`). -/
def natVal (l : List Char) : Nat :=
  l.foldl (fun a c => 10 * a + digitVal c) 0

/-- Invariant of the equation list built by `preserve_equations`: every
record's placeholder was built by `phString` from one of the two kinds
with a counter in `[1, c)`, the placeholders are pairwise distinct, and
the running counter `c` is at least 1. -/
def GoodRecs (c : Nat) (recs : List EqRecord) : Prop :=
  (∀ r ∈ recs, ∃ ty n, (ty = "DISPLAY".toList ∨ ty = "INLINE".toList) ∧
      1 ≤ n ∧ n < c ∧ r.placeholder = phString ty n) ∧
    (recs.map EqRecord.placeholder).Nodup ∧ 1 ≤ c

/-! ### Generic scanning lemmas -/

theorem takeWhile_append_of_all {p : Char → Bool} {l : List Char}
    (h : ∀ a ∈ l, p a = true) (r : List Char) :
    (l ++ r).takeWhile p = l ++ r.takeWhile p := by
  induction l with
  | nil => simp
  | cons x xs ih => simp_all [List.takeWhile_cons]

theorem dropWhile_append_of_all {p : Char → Bool} {l : List Char}
    (h : ∀ a ∈ l, p a = true) (r : List Char) :
    (l ++ r).dropWhile p = r.dropWhile p := by
  induction l with
  | nil => simp
  | cons x xs ih => simp_all [List.dropWhile_cons]

theorem breakOn_eq_append {d : List Char} : ∀ {s pre post : List Char},
    breakOn d s = some (pre, post) → s = pre ++ d ++ post := by
  intro s
  induction s with
  | nil =>
    intro pre post h
    simp only [breakOn] at h
    split at h
    · next hp =>
      rw [List.isPrefixOf_iff_prefix, List.prefix_nil] at hp
      simp only [Option.some.injEq, Prod.mk.injEq] at h
      obtain ⟨h1, h2⟩ := h
      simp [← h1, ← h2, hp]
    · simp at h
  | cons c rest ih =>
    intro pre post h
    simp only [breakOn] at h
    split at h
    · next hp =>
      simp only [Option.some.injEq, Prod.mk.injEq] at h
      obtain ⟨h1, h2⟩ := h
      rw [List.isPrefixOf_iff_prefix] at hp
      obtain ⟨t, ht⟩ := hp
      rw [← ht, List.drop_left] at h2
      rw [← h1, ← h2, ← ht]
      simp
    · next hp =>
      cases hb : breakOn d rest with
      | none => rw [hb] at h; simp at h
      | some pr =>
        obtain ⟨pre1, post1⟩ := pr
        rw [hb] at h
        simp only [Option.some.injEq, Prod.mk.injEq] at h
        obtain ⟨h1, h2⟩ := h
        have hr := ih hb
        rw [← h1, ← h2, hr]
        simp

theorem breakOn_none_no_occ {d : List Char} : ∀ {s : List Char},
    breakOn d s = none → ¬ ContainsSeg d s := by
  intro s
  induction s with
  | nil =>
    intro h hc
    obtain ⟨u, v, huv⟩ := hc
    have h0 := List.append_eq_nil.mp (List.append_eq_nil.mp huv.symm).1
    have hd : d = [] := h0.2
    rw [hd] at h
    simp [breakOn, List.isPrefixOf] at h
  | cons c rest ih =>
    intro h hc
    simp only [breakOn] at h
    split at h
    · simp at h
    · next hp =>
      cases hb : breakOn d rest with
      | some pr => rw [hb] at h; simp at h
      | none =>
        obtain ⟨u, v, huv⟩ := hc
        cases u with
        | nil =>
          apply hp
          rw [List.isPrefixOf_iff_prefix]
          exact ⟨v, by simpa using huv.symm⟩
        | cons x u1 =>
          simp only [List.cons_append, List.cons.injEq] at huv
          exact ih hb ⟨u1, v, huv.2⟩

theorem breakOn_pre_no_occ {d : List Char} (hd : d ≠ []) : ∀ {s pre post : List Char},
    breakOn d s = some (pre, post) → ¬ ContainsSeg d pre := by
  intro s
  induction s with
  | nil =>
    intro pre post h hc
    simp only [breakOn] at h
    split at h
    · simp only [Option.some.injEq, Prod.mk.injEq] at h
      obtain ⟨u, v, huv⟩ := hc
      rw [← h.1] at huv
      have h0 := List.append_eq_nil.mp (List.append_eq_nil.mp huv.symm).1
      exact hd h0.2
    · simp at h
  | cons c rest ih =>
    intro pre post h hc
    simp only [breakOn] at h
    split at h
    · next hp =>
      simp only [Option.some.injEq, Prod.mk.injEq] at h
      obtain ⟨u, v, huv⟩ := hc
      rw [← h.1] at huv
      have h0 := List.append_eq_nil.mp (List.append_eq_nil.mp huv.symm).1
      exact hd h0.2
    · next hp =>
      cases hb : breakOn d rest with
      | none => rw [hb] at h; simp at h
      | some pr =>
        obtain ⟨pre1, post1⟩ := pr
        rw [hb] at h
        simp only [Option.some.injEq, Prod.mk.injEq] at h
        obtain ⟨h1, h2⟩ := h
        obtain ⟨u, v, huv⟩ := hc
        rw [← h1] at huv
        cases u with
        | nil =>
          apply hp
          rw [List.isPrefixOf_iff_prefix]
          have hrest := breakOn_eq_append hb
          simp only [List.nil_append] at huv
          refine ⟨v ++ d ++ post1, ?_⟩
          have hshape : c :: rest = (c :: pre1) ++ (d ++ post1) := by rw [hrest]; simp
          rw [hshape, huv]
          simp
        | cons x u1 =>
          simp only [List.cons_append, List.cons.injEq] at huv
          exact ih hb ⟨u1, v, huv.2⟩

theorem joinSep_cons_ne (sep a : List Char) {l : List (List Char)} (h : l ≠ []) :
    joinSep sep (a :: l) = a ++ sep ++ joinSep sep l := by
  cases l with
  | nil => simp at h
  | cons b l1 => rfl

theorem replaceAllF_spec {old new : List Char} (hold : old ≠ []) :
    ∀ fuel s, s.length < fuel →
      ∃ segs : List (List Char), segs ≠ [] ∧ joinSep old segs = s ∧
        joinSep new segs = replaceAllF fuel old new s ∧
        ∀ seg ∈ segs, ¬ ContainsSeg old seg := by
  intro fuel
  induction fuel with
  | zero => intro s h; omega
  | succ n ih =>
    intro s hs
    simp only [replaceAllF]
    cases hb : breakOn old s with
    | none =>
      refine ⟨[s], by simp, rfl, rfl, ?_⟩
      intro seg hseg
      simp only [List.mem_singleton] at hseg
      rw [hseg]
      exact breakOn_none_no_occ hb
    | some pr =>
      obtain ⟨pre, post⟩ := pr
      have hsplit := breakOn_eq_append hb
      have holdlen : 1 ≤ old.length := by
        cases old with
        | nil => simp at hold
        | cons a l => simp
      have hlen : post.length < n := by
        have hl := congrArg List.length hsplit
        simp only [List.length_append] at hl
        omega
      obtain ⟨segs1, h1, h2, h3, h4⟩ := ih post hlen
      refine ⟨pre :: segs1, by simp, ?_, ?_, ?_⟩
      · rw [joinSep_cons_ne old pre h1, h2, hsplit]
      · rw [joinSep_cons_ne new pre h1, h3]
      · intro seg hseg
        rcases List.mem_cons.mp hseg with h | h
        · rw [h]; exact breakOn_pre_no_occ hold hb
        · exact h4 _ h

/-- C2 (amended): within one substitution step of `preserve_equations`
(line 40, `text.replace(match.group(0), placeholder)`), EVERY
non-overlapping occurrence of the matched text in the current text is
replaced by the placeholder, scanning left to right — not only the
first one: the text decomposes into occurrence-free segments joined by
the matched text, and the result is the same segments joined by the
placeholder. -/
theorem replace_step_replaces_all_occurrences (old new s : List Char) (h : old ≠ []) :
    ∃ segs : List (List Char), segs ≠ [] ∧ joinSep old segs = s ∧
      joinSep new segs = replaceAll old new s ∧
      ∀ seg ∈ segs, ¬ ContainsSeg old seg :=
  replaceAllF_spec h (s.length + 1) s (by omega)

/-- Witness for C2's amended theorem at the concrete substitution step
of `preserve_equations "$x$ and $x$"`. -/
theorem replace_step_replaces_all_occurrences_witness :
    "$x$".toList ≠ [] ∧
      ∃ segs : List (List Char), segs ≠ [] ∧
        joinSep "$x$".toList segs = "$x$ and $x$".toList ∧
        joinSep "[EQ_INLINE_1]".toList segs =
          replaceAll "$x$".toList "[EQ_INLINE_1]".toList "$x$ and $x$".toList ∧
        ∀ seg ∈ segs, ¬ ContainsSeg "$x$".toList seg :=
  ⟨by decide, replace_step_replaces_all_occurrences _ _ _ (by decide)⟩

/-- C2 counterexample: the substitution step for the first match `$x$`
of `"$x$ and $x$"` rewrites BOTH identical occurrences at once (Python
`str.replace` replaces all occurrences), so the second occurrence is
not left unchanged as the claim states. -/
theorem replace_step_first_only_counterexample :
    replaceAll "$x$".toList "[EQ_INLINE_1]".toList "$x$ and $x$".toList =
        "[EQ_INLINE_1] and [EQ_INLINE_1]".toList ∧
      replaceAll "$x$".toList "[EQ_INLINE_1]".toList "$x$ and $x$".toList ≠
        "[EQ_INLINE_1] and $x$".toList := by
  constructor
  · decide
  · decide

theorem runPattern_no_match (L R ty : List Char) (st : List Char × Nat × List EqRecord)
    (h : scanPairs L R st.1 = []) : runPattern L R ty st = st := by
  simp [runPattern, h, runMatches]

theorem preserve_equations_no_match {t : List Char}
    (h1 : scanPairs "\\begin\x7bequation\x7d".toList "\\end\x7bequation\x7d".toList t = [])
    (h2 : scanPairs "\\[".toList "\\]".toList t = [])
    (h3 : scanPairs "$".toList "$".toList t = []) :
    preserve_equations t = (t, []) := by
  simp only [preserve_equations]
  rw [runPattern_no_match "\\begin\x7bequation\x7d".toList "\\end\x7bequation\x7d".toList
    "DISPLAY".toList (t, 1, []) h1]
  rw [runPattern_no_match "\\[".toList "\\]".toList "DISPLAY".toList (t, 1, []) h2]
  rw [runPattern_no_match "$".toList "$".toList "INLINE".toList (t, 1, []) h3]

/-- C1 counterexample: for the end-to-end example text, the single
equation record has word count 5 (`x^2`, `+`, `y^2`, `=`, `z^2`), not 7
as the claim states. -/
theorem equation_example_length_counterexample :
    ((preserve_equations "The model achieves \\[x^2 + y^2 = z^2\\] accuracy of 95%. It outperforms baselines.".toList).2.map
        EqRecord.length) = [5] ∧
      ((preserve_equations "The model achieves \\[x^2 + y^2 = z^2\\] accuracy of 95%. It outperforms baselines.".toList).2.map
        EqRecord.length) ≠ [7] := by
  constructor
  · decide
  · decide

/-- C1 (amended): the end-to-end example produces exactly the claimed
transformed text and the single DISPLAY record for `x^2 + y^2 = z^2`
with placeholder `[EQ_DISPLAY_1]` — whose length field is 5 (the
whitespace-split word count of the body), not 7. -/
theorem equation_example_amended :
    preserve_equations "The model achieves \\[x^2 + y^2 = z^2\\] accuracy of 95%. It outperforms baselines.".toList =
      ("The model achieves [EQ_DISPLAY_1] accuracy of 95%. It outperforms baselines.".toList,
        [⟨"[EQ_DISPLAY_1]".toList, "x^2 + y^2 = z^2".toList, "DISPLAY".toList, 5⟩]) := by
  decide

/-- C4: on text in which no equation pattern matches — no
`\begin{equation}...\end{equation}` block, no `\[...\]` block and no
`$...$` pair, which is the situation after equations have been replaced
by placeholders — `preserve_equations` returns the text unchanged with
an empty equation list (idempotence on its own output). -/
theorem preserve_equations_idempotent (t : List Char)
    (h1 : scanPairs "\\begin\x7bequation\x7d".toList "\\end\x7bequation\x7d".toList t = [])
    (h2 : scanPairs "\\[".toList "\\]".toList t = [])
    (h3 : scanPairs "$".toList "$".toList t = []) :
    preserve_equations t = (t, []) :=
  preserve_equations_no_match h1 h2 h3

/-- Witness for C4 on a placeholder-only text. -/
theorem preserve_equations_idempotent_witness :
    scanPairs "\\begin\x7bequation\x7d".toList "\\end\x7bequation\x7d".toList
        "[EQ_DISPLAY_1] implies [EQ_INLINE_2]".toList = [] ∧
      scanPairs "\\[".toList "\\]".toList "[EQ_DISPLAY_1] implies [EQ_INLINE_2]".toList = [] ∧
      scanPairs "$".toList "$".toList "[EQ_DISPLAY_1] implies [EQ_INLINE_2]".toList = [] ∧
      preserve_equations "[EQ_DISPLAY_1] implies [EQ_INLINE_2]".toList =
        ("[EQ_DISPLAY_1] implies [EQ_INLINE_2]".toList, []) :=
  ⟨by decide, by decide, by decide,
    preserve_equations_idempotent _ (by decide) (by decide) (by decide)⟩

/-- C10: on equation-free text — none of the three patterns has a
match — `preserve_equations` applies no substitution at all: it returns
the input text completely unchanged together with an empty list. -/
theorem preserve_equations_frame (t : List Char)
    (h1 : scanPairs "\\begin\x7bequation\x7d".toList "\\end\x7bequation\x7d".toList t = [])
    (h2 : scanPairs "\\[".toList "\\]".toList t = [])
    (h3 : scanPairs "$".toList "$".toList t = []) :
    preserve_equations t = (t, []) :=
  preserve_equations_no_match h1 h2 h3

/-- Witness for C10 on a plain equation-free sentence. -/
theorem preserve_equations_frame_witness :
    scanPairs "\\begin\x7bequation\x7d".toList "\\end\x7bequation\x7d".toList
        "No equations appear in this text.".toList = [] ∧
      scanPairs "\\[".toList "\\]".toList "No equations appear in this text.".toList = [] ∧
      scanPairs "$".toList "$".toList "No equations appear in this text.".toList = [] ∧
      preserve_equations "No equations appear in this text.".toList =
        ("No equations appear in this text.".toList, []) :=
  ⟨by decide, by decide, by decide,
    preserve_equations_frame _ (by decide) (by decide) (by decide)⟩

theorem avg_formula (w : Nat) (l : List (List Char)) :
    (if l.isEmpty then (0 : ℚ) else (w : ℚ) / (l.length : ℚ)) =
      if l.length = 0 then (0 : ℚ) else (w : ℚ) / (l.length : ℚ) := by
  cases l <;> simp

/-- C6: `avg_sentence_length` equals `word_count / sentence_count`
whenever `sentence_count > 0` and equals `0` when `sentence_count = 0`:
the guard `if sentences else 0` of `calculate_readability` is exactly
the emptiness of the filtered sentence list, so the division is never
taken with a zero denominator. -/
theorem calculate_readability_avg (t : List Char) :
    (calculate_readability t).avg_sentence_length =
      if (calculate_readability t).sentence_count = 0 then (0 : ℚ)
      else ((calculate_readability t).word_count : ℚ) /
        ((calculate_readability t).sentence_count : ℚ) :=
  avg_formula _ _

/-! ### Decimal rendering and placeholder distinctness -/

theorem digitVal_digitChar {d : Nat} (h : d < 10) : digitVal (digitChar d) = d := by
  interval_cases d <;> rfl

theorem digitChar_isDigit {d : Nat} (h : d < 10) : (digitChar d).isDigit = true := by
  interval_cases d <;> rfl

theorem natVal_append_digit (xs : List Char) (c : Char) :
    natVal (xs ++ [c]) = 10 * natVal xs + digitVal c := by
  simp [natVal, List.foldl_append]

theorem natVal_natCharsF : ∀ fuel n, n ≤ fuel → natVal (natCharsF fuel n) = n := by
  intro fuel
  induction fuel with
  | zero =>
    intro n h
    interval_cases n
    rfl
  | succ f ih =>
    intro n h
    cases n with
    | zero => rfl
    | succ m =>
      rw [natCharsF, natVal_append_digit]
      have hq : (m + 1) / 10 ≤ f := by
        have h1 : (m + 1) / 10 < m + 1 := Nat.div_lt_self (Nat.succ_pos m) (by norm_num)
        omega
      rw [ih _ hq, digitVal_digitChar (Nat.mod_lt _ (by norm_num))]
      exact Nat.div_add_mod (m + 1) 10

theorem natVal_natChars (n : Nat) : natVal (natChars n) = n := by
  by_cases h : n = 0
  · subst h; rfl
  · rw [natChars, if_neg h]
    exact natVal_natCharsF n n le_rfl

theorem natChars_injective {a b : Nat} (h : natChars a = natChars b) : a = b := by
  have hv := congrArg natVal h
  rwa [natVal_natChars, natVal_natChars] at hv

theorem natCharsF_all_digits : ∀ fuel n, ∀ c ∈ natCharsF fuel n, c.isDigit = true := by
  intro fuel
  induction fuel with
  | zero => intro n c hc; simp [natCharsF] at hc
  | succ f ih =>
    intro n c hc
    cases n with
    | zero => simp [natCharsF] at hc
    | succ m =>
      rw [natCharsF] at hc
      rcases List.mem_append.mp hc with h | h
      · exact ih _ _ h
      · simp only [List.mem_singleton] at h
        rw [h]
        exact digitChar_isDigit (Nat.mod_lt _ (by norm_num))

theorem natChars_all_digits (n : Nat) : ∀ c ∈ natChars n, c.isDigit = true := by
  by_cases h : n = 0
  · subst h
    intro c hc
    simp [natChars] at hc
    rw [hc]; rfl
  · rw [natChars, if_neg h]
    exact natCharsF_all_digits n n

theorem natChars_ne_nil (n : Nat) : natChars n ≠ [] := by
  intro h
  have hv := natVal_natChars n
  rw [h] at hv
  have hn : n = 0 := by simpa [natVal] using hv.symm
  rw [hn] at h
  simp [natChars] at h

theorem phString_display (n : Nat) :
    phString "DISPLAY".toList n =
      '[' :: 'E' :: 'Q' :: '_' :: 'D' :: 'I' :: 'S' :: 'P' :: 'L' :: 'A' :: 'Y' :: '_' ::
        (natChars n ++ [']']) := rfl

theorem phString_inline (n : Nat) :
    phString "INLINE".toList n =
      '[' :: 'E' :: 'Q' :: '_' :: 'I' :: 'N' :: 'L' :: 'I' :: 'N' :: 'E' :: '_' ::
        (natChars n ++ [']']) := rfl

theorem phString_inj {ty1 ty2 : List Char} {m n : Nat}
    (h1 : ty1 = "DISPLAY".toList ∨ ty1 = "INLINE".toList)
    (h2 : ty2 = "DISPLAY".toList ∨ ty2 = "INLINE".toList)
    (h : phString ty1 m = phString ty2 n) : m = n := by
  rcases h1 with h1 | h1 <;> rcases h2 with h2 | h2 <;> subst h1 <;> subst h2
  · rw [phString_display, phString_display] at h
    simp only [List.cons.injEq, true_and] at h
    exact natChars_injective (List.append_cancel_right h)
  · rw [phString_display, phString_inline] at h
    simp at h
  · rw [phString_inline, phString_display] at h
    simp at h
  · rw [phString_inline, phString_inline] at h
    simp only [List.cons.injEq, true_and] at h
    exact natChars_injective (List.append_cancel_right h)

theorem runMatches_good {L R ty : List Char}
    (hty : ty = "DISPLAY".toList ∨ ty = "INLINE".toList) :
    ∀ (bodies : List (List Char)) (t : List Char) (c : Nat) (recs : List EqRecord),
      GoodRecs c recs →
      GoodRecs (runMatches L R ty bodies (t, c, recs)).2.1
        (runMatches L R ty bodies (t, c, recs)).2.2 := by
  intro bodies
  induction bodies with
  | nil => intro t c recs h; exact h
  | cons body rest ih =>
    intro t c recs h
    obtain ⟨hall, hnodup, hc⟩ := h
    rw [runMatches]
    apply ih
    refine ⟨?_, ?_, by omega⟩
    · intro r hr
      rcases List.mem_append.mp hr with hm | hm
      · obtain ⟨ty1, n, hty1, ha, hb, hc1⟩ := hall r hm
        exact ⟨ty1, n, hty1, ha, by omega, hc1⟩
      · simp only [List.mem_singleton] at hm
        rw [hm]
        exact ⟨ty, c, hty, hc, by omega, rfl⟩
    · rw [List.map_append, List.nodup_append]
      refine ⟨hnodup, by simp, ?_⟩
      intro x hx hx2
      simp only [List.map_cons, List.map_nil, List.mem_singleton] at hx2
      obtain ⟨r, hr, hrx⟩ := List.mem_map.mp hx
      obtain ⟨ty1, n, hty1, ha, hb, hc1⟩ := hall r hr
      rw [← hrx, hc1] at hx2
      have := phString_inj hty1 hty hx2
      omega

theorem runPattern_good {L R ty : List Char}
    (hty : ty = "DISPLAY".toList ∨ ty = "INLINE".toList)
    (st : List Char × Nat × List EqRecord) (h : GoodRecs st.2.1 st.2.2) :
    GoodRecs (runPattern L R ty st).2.1 (runPattern L R ty st).2.2 := by
  obtain ⟨t, c, recs⟩ := st
  exact runMatches_good hty _ t c recs h

/-- C3 (amended): the records returned by `preserve_equations` always
carry pairwise distinct placeholders (the shared counter strictly
increases across all three passes), but the claimed bijection with the
transformed text does not hold in general: when two identical equations
occur, a record's placeholder can be absent from the text and another
placeholder can occur twice (see the counterexample). -/
theorem preserve_equations_placeholders_nodup (text : List Char) :
    ((preserve_equations text).2.map EqRecord.placeholder).Nodup := by
  have h0 : GoodRecs 1 ([] : List EqRecord) := ⟨by simp, by simp, le_rfl⟩
  have h1 := runPattern_good (L := "\\begin\x7bequation\x7d".toList)
    (R := "\\end\x7bequation\x7d".toList) (Or.inl rfl) (text, 1, []) h0
  have h2 := runPattern_good (L := "\\[".toList) (R := "\\]".toList) (Or.inl rfl) _ h1
  have h3 := runPattern_good (L := "$".toList) (R := "$".toList) (Or.inr rfl) _ h2
  simp only [preserve_equations]
  exact h3.2.1

/-- C3 counterexample: for input `"$a$ $a$"` the returned pair is not a
bijection — the placeholder `[EQ_INLINE_1]` occurs twice in the
transformed text, and the second record's placeholder `[EQ_INLINE_2]`
does not occur in the transformed text at all. -/
theorem preserve_equations_bijection_counterexample :
    (preserve_equations "$a$ $a$".toList).1 = "[EQ_INLINE_1] [EQ_INLINE_1]".toList ∧
      (preserve_equations "$a$ $a$".toList).2.map EqRecord.placeholder =
        ["[EQ_INLINE_1]".toList, "[EQ_INLINE_2]".toList] ∧
      breakOn "[EQ_INLINE_2]".toList (preserve_equations "$a$ $a$".toList).1 = none := by
  refine ⟨by decide, by decide, by decide⟩

/-! ### Metadata failure handling -/

/-- C9: whenever the metadata fetch fails — the identifier is absent,
or the external catalog call raises any error, or it returns no result
(the `next()` on an empty iterator raises, which the bare `except`
also catches) — the caller sees `none` and no error propagates, and
the driver's record still gets domain `"Unknown"` and the current
processing year instead of aborting. -/
theorem metadata_failure_defaults (arxivId : Option (List Char))
    (lookup : List Char → LookupOutcome) (currentYear : Int)
    (h : arxivId = none ∨ ∃ i, arxivId = some i ∧ lookup i = .err) :
    metaFor arxivId lookup = none ∧
      recordDomainYear (metaFor arxivId lookup) currentYear =
        ("Unknown".toList, currentYear) := by
  have hm : metaFor arxivId lookup = none := by
    rcases h with h | ⟨i, hi, he⟩
    · rw [h]; rfl
    · rw [hi]
      simp [metaFor, get_paper_metadata, he]
  exact ⟨hm, by rw [hm]; rfl⟩

/-- Witness for C9 with the spec's failing identifier `9999.99999` and
an always-erroring catalog service. -/
theorem metadata_failure_defaults_witness :
    ((some "9999.99999".toList : Option (List Char)) = none ∨
      ∃ i, (some "9999.99999".toList : Option (List Char)) = some i ∧
        (fun _ : List Char => LookupOutcome.err) i = .err) ∧
      metaFor (some "9999.99999".toList) (fun _ => LookupOutcome.err) = none ∧
      recordDomainYear (metaFor (some "9999.99999".toList) (fun _ => LookupOutcome.err))
          2026 = ("Unknown".toList, 2026) :=
  ⟨Or.inr ⟨_, rfl, rfl⟩, metadata_failure_defaults _ _ 2026 (Or.inr ⟨_, rfl, rfl⟩)⟩

/-! ### Sentence filter bounds -/

theorem matchPh_none_of_head {c : Char} (s : List Char) (h : c ≠ '[') :
    matchPh (c :: s) = none := by
  simp only [matchPh]
  rw [if_neg]
  intro hp
  rw [List.isPrefixOf_iff_prefix] at hp
  obtain ⟨t, ht⟩ := hp
  have ht2 : ('[' :: "EQ_".toList) ++ t = c :: s := ht
  simp only [List.cons_append, List.cons.injEq] at ht2
  exact h ht2.1.symm

theorem stripPlaceholdersF_no_bracket : ∀ fuel (l : List Char),
    (∀ c ∈ l, c ≠ '[') → stripPlaceholdersF fuel l = l := by
  intro fuel
  induction fuel with
  | zero => intro l h; cases l <;> rfl
  | succ f ih =>
    intro l h
    cases l with
    | nil => rfl
    | cons c s =>
      rw [stripPlaceholdersF, matchPh_none_of_head s (h c (List.mem_cons_self c s))]
      rw [ih s (fun x hx => h x (List.mem_cons_of_mem c hx))]

theorem stripPlaceholders_no_bracket (l : List Char) (h : ∀ c ∈ l, c ≠ '[') :
    stripPlaceholders l = l :=
  stripPlaceholdersF_no_bracket _ _ h

theorem sentSplitF_no_space : ∀ fuel rev cur s, (∀ c ∈ s, isPySpace c = false) →
    sentSplitF fuel rev cur s = [cur.reverse ++ s] := by
  intro fuel
  induction fuel with
  | zero =>
    intro rev cur s h
    cases s with
    | nil => simp [sentSplitF]
    | cons c s1 => rfl
  | succ f ih =>
    intro rev cur s h
    cases s with
    | nil => simp [sentSplitF]
    | cons c s1 =>
      have hc : isPySpace c = false := h c (List.mem_cons_self c s1)
      have hd : splitDelimAt rev (c :: s1) = none := by
        cases rev with
        | nil => rfl
        | cons p r => simp [splitDelimAt, List.takeWhile_cons, hc]
      rw [sentSplitF, hd, ih (c :: rev) (c :: cur) s1 (fun x hx => h x (List.mem_cons_of_mem c hx))]
      simp

/-- C5 (amended): a candidate sentence is retained by the sentence
filter of `calculate_readability` iff its length is STRICTLY between
10 and 500 (`10 < len(s) < 500`); in particular candidates of exactly
10 and exactly 500 characters are discarded, not retained.  Shown for
the whole family of single-candidate texts `replicate n 'a'`. -/
theorem sentence_filter_strict_bounds (n : Nat) :
    (calculate_readability (List.replicate n 'a')).sentence_count =
      if 10 < n ∧ n < 500 then 1 else 0 := by
  have hs : stripPlaceholders (List.replicate n 'a') = List.replicate n 'a' :=
    stripPlaceholders_no_bracket _
      (by intro c hc; rw [List.eq_of_mem_replicate hc]; decide)
  have hsp : sentSplit (List.replicate n 'a') = [List.replicate n 'a'] := by
    rw [sentSplit,
      sentSplitF_no_space _ _ _ _ (by intro c hc; rw [List.eq_of_mem_replicate hc]; rfl)]
    simp
  simp only [calculate_readability, hs, hsp]
  by_cases h1 : 10 < n <;> by_cases h2 : n < 500 <;>
    simp [List.filter_cons, h1, h2]

/-- C5 counterexample: the 10-character candidate sentence
`"aaaaaaaaaa"` — the single split candidate of its text — is discarded
by the filter, so the sentence count is 0, contradicting the claim
that a sentence of exactly 10 characters is retained. -/
theorem sentence_filter_boundary_counterexample :
    sentSplit (stripPlaceholders "aaaaaaaaaa".toList) = ["aaaaaaaaaa".toList] ∧
      ("aaaaaaaaaa".toList).length = 10 ∧
      (calculate_readability "aaaaaaaaaa".toList).sentence_count = 0 := by
  refine ⟨by decide, by decide, by decide⟩

/-! ### Placeholder stripping before word tokenization -/

theorem isWordChar_of_digit {c : Char} (h : c.isDigit = true) : isWordChar c = true := by
  simp [isWordChar, h]

theorem drop4_bracket (x : List Char) : ("[EQ_".toList ++ x).drop 4 = x := rfl

theorem matchPh_length {s rest : List Char} (h : matchPh s = some rest) :
    rest.length + 5 ≤ s.length := by
  simp only [matchPh] at h
  split at h
  · next hp =>
    rw [List.isPrefixOf_iff_prefix] at hp
    obtain ⟨t, ht⟩ := hp
    have hdrop : s.drop 4 = t := by
      rw [← ht]
      exact drop4_bracket t
    rw [hdrop] at h
    split at h
    · next c0 rest1 heq =>
      split at h
      · simp only [Option.some.injEq] at h
        have hw := List.takeWhile_append_dropWhile isWordChar t
        rw [heq] at hw
        have h4 : ("[EQ_".toList).length = 4 := rfl
        have hlen := congrArg List.length ht
        have hlen2 := congrArg List.length hw
        simp only [List.length_append, List.length_cons, h4] at hlen hlen2
        rw [← h]
        omega
      · simp at h
    · simp at h
  · simp at h

theorem matchPh_none_nil : matchPh [] = none := rfl

theorem stripPlaceholdersF_stable : ∀ f1 f2 s, s.length ≤ f1 → s.length ≤ f2 →
    stripPlaceholdersF f1 s = stripPlaceholdersF f2 s := by
  intro f1
  induction f1 with
  | zero =>
    intro f2 s h1 h2
    have : s = [] := List.length_eq_zero.mp (Nat.le_zero.mp h1)
    subst this
    cases f2 <;> rfl
  | succ g1 ih =>
    intro f2 s h1 h2
    cases s with
    | nil => cases f2 <;> rfl
    | cons c s1 =>
      cases f2 with
      | zero => simp at h2
      | succ g2 =>
        rw [stripPlaceholdersF, stripPlaceholdersF]
        cases hm : matchPh (c :: s1) with
        | some rest =>
          have hl := matchPh_length hm
          have h1l : s1.length + 1 ≤ g1 + 1 := by simpa using h1
          have h2l : s1.length + 1 ≤ g2 + 1 := by simpa using h2
          have hr : rest.length + 5 ≤ s1.length + 1 := by simpa using hl
          exact ih g2 rest (by omega) (by omega)
        | none =>
          have h1l : s1.length + 1 ≤ g1 + 1 := by simpa using h1
          have h2l : s1.length + 1 ≤ g2 + 1 := by simpa using h2
          rw [ih g2 s1 (by omega) (by omega)]

theorem strip_cons_of_none {c : Char} {s : List Char} (h : matchPh (c :: s) = none) :
    stripPlaceholders (c :: s) = c :: stripPlaceholders s := by
  show stripPlaceholdersF (s.length + 1) (c :: s) = _
  rw [stripPlaceholdersF, h]
  rfl

theorem strip_of_matchPh {s rest : List Char} (h : matchPh s = some rest) :
    stripPlaceholders s = stripPlaceholders rest := by
  cases s with
  | nil => rw [matchPh_none_nil] at h; simp at h
  | cons c s1 =>
    have hl := matchPh_length h
    simp only [List.length_cons] at hl
    show stripPlaceholdersF (s1.length + 1) (c :: s1) = _
    rw [stripPlaceholdersF, h]
    exact stripPlaceholdersF_stable s1.length rest.length rest (by omega) le_rfl

theorem strip_append_no_bracket {u : List Char} (hu : ∀ c ∈ u, c ≠ '[')
    (w : List Char) : stripPlaceholders (u ++ w) = u ++ stripPlaceholders w := by
  induction u with
  | nil => rfl
  | cons c u1 ih =>
    have hc : c ≠ '[' := hu c (List.mem_cons_self c u1)
    rw [List.cons_append, strip_cons_of_none (matchPh_none_of_head _ hc)]
    rw [ih (fun x hx => hu x (List.mem_cons_of_mem c hx))]
    rfl

theorem matchPh_phString {ty : List Char} (n : Nat)
    (hty : ty = "DISPLAY".toList ∨ ty = "INLINE".toList) (v : List Char) :
    matchPh (phString ty n ++ v) = some v := by
  have hshape : phString ty n ++ v =
      "[EQ_".toList ++ (ty ++ ('_' :: (natChars n ++ (']' :: v)))) := by
    simp [phString]
  have hword : ∀ c ∈ ty ++ ('_' :: natChars n), isWordChar c = true := by
    intro c hc
    rcases List.mem_append.mp hc with hm | hm
    · rcases hty with h | h <;> subst h <;> fin_cases hm <;> decide
    · rcases List.mem_cons.mp hm with hm | hm
      · rw [hm]; decide
      · exact isWordChar_of_digit (natChars_all_digits n c hm)
  have htail : ty ++ ('_' :: (natChars n ++ (']' :: v))) =
      (ty ++ ('_' :: natChars n)) ++ (']' :: v) := by simp
  have hint : phInterior (ty ++ ('_' :: natChars n)) = true := by
    simp only [phInterior]
    have hrev : (ty ++ ('_' :: natChars n)).reverse =
        (natChars n).reverse ++ ('_' :: ty.reverse) := by simp
    have hdigits : ∀ c ∈ (natChars n).reverse, c.isDigit = true := by
      intro c hc
      exact natChars_all_digits n c (List.mem_reverse.mp hc)
    rw [hrev, takeWhile_append_of_all hdigits]
    have hu2 : ('_' :: ty.reverse).takeWhile Char.isDigit = [] := by
      rw [List.takeWhile_cons]
      simp
    rw [hu2, List.append_nil]
    have hd2 : ((natChars n).reverse ++ ('_' :: ty.reverse)).drop (natChars n).reverse.length =
        '_' :: ty.reverse := List.drop_left _ _
    rw [hd2]
    have h1 : ((natChars n).reverse).isEmpty = false := by
      cases hnc : natChars n with
      | nil => exact absurd hnc (natChars_ne_nil n)
      | cons a l => simp [hnc]
    have h2 : (ty.reverse).isEmpty = false := by
      rcases hty with h | h <;> subst h <;> decide
    simp [h1, h2]
  have hpre : "[EQ_".toList.isPrefixOf (phString ty n ++ v) = true := by
    rw [hshape, List.isPrefixOf_iff_prefix]
    exact List.prefix_append _ _
  have hdrop4 : (phString ty n ++ v).drop 4 = ty ++ ('_' :: (natChars n ++ (']' :: v))) := by
    rw [hshape]
    exact drop4_bracket _
  have hbr : (']' :: v).dropWhile isWordChar = ']' :: v := by
    rw [List.dropWhile_cons]
    simp [isWordChar]
  have hbr2 : (']' :: v).takeWhile isWordChar = [] := by
    rw [List.takeWhile_cons]
    simp [isWordChar]
  simp only [matchPh, hpre, if_pos, hdrop4, htail, dropWhile_append_of_all hword,
    takeWhile_append_of_all hword, hbr, hbr2, List.append_nil, hint]

theorem strip_phString_head {ty : List Char} (n : Nat)
    (hty : ty = "DISPLAY".toList ∨ ty = "INLINE".toList) (v : List Char) :
    stripPlaceholders (phString ty n ++ v) = stripPlaceholders v :=
  strip_of_matchPh (matchPh_phString n hty v)

/-- C7: placeholder tokens are never counted as words: inserting any
placeholder that `preserve_equations` can generate (`[EQ_DISPLAY_n]` or
`[EQ_INLINE_n]`, any counter) into a text at a position whose preceding
segment contains no `[` leaves every metric of `calculate_readability`
unchanged — the token is removed by the `\[EQ_\w+_\d+\]` substitution
before sentence splitting and word tokenization. -/
theorem word_count_excludes_placeholders (u v ty : List Char) (n : Nat)
    (hty : ty = "DISPLAY".toList ∨ ty = "INLINE".toList)
    (hu : ∀ c ∈ u, c ≠ '[') :
    calculate_readability (u ++ (phString ty n ++ v)) = calculate_readability (u ++ v) := by
  have hstrip : stripPlaceholders (u ++ (phString ty n ++ v)) = u ++ stripPlaceholders v := by
    rw [strip_append_no_bracket hu, strip_phString_head n hty v]
  have hstrip2 : stripPlaceholders (u ++ v) = u ++ stripPlaceholders v :=
    strip_append_no_bracket hu v
  simp only [calculate_readability, hstrip, hstrip2]

/-- Witness for C7: inserting `[EQ_DISPLAY_1]` into a small sentence
leaves all computed metrics unchanged. -/
theorem word_count_excludes_placeholders_witness :
    (∀ c ∈ "See ".toList, c ≠ '[') ∧
      calculate_readability ("See ".toList ++ (phString "DISPLAY".toList 1 ++ " for detail.".toList)) =
        calculate_readability ("See ".toList ++ " for detail.".toList) :=
  ⟨by decide, word_count_excludes_placeholders _ _ _ 1 (Or.inl rfl) (by decide)⟩

/-! ### Filename identifier extraction -/

theorem eq_four_of_length {l : List Char} (h : l.length = 4) :
    ∃ a b c d, l = [a, b, c, d] := by
  rcases l with _ | ⟨a, l⟩
  · simp at h
  rcases l with _ | ⟨b, l⟩
  · simp at h
  rcases l with _ | ⟨c, l⟩
  · simp at h
  rcases l with _ | ⟨d, l⟩
  · simp at h
  rcases l with _ | ⟨e, l⟩
  · exact ⟨a, b, c, d, rfl⟩
  · simp at h

theorem eq_five_of_length {l : List Char} (h : l.length = 5) :
    ∃ a b c d e, l = [a, b, c, d, e] := by
  rcases l with _ | ⟨a, l⟩
  · simp at h
  obtain ⟨b, c, d, e, hl⟩ := eq_four_of_length (by simpa using h)
  exact ⟨a, b, c, d, e, by rw [hl]⟩

theorem takeDigits_sound : ∀ {n : Nat} {s d r : List Char},
    takeDigits n s = some (d, r) →
      s = d ++ r ∧ d.length = n ∧ d.all Char.isDigit = true := by
  intro n
  induction n with
  | zero =>
    intro s d r h
    simp only [takeDigits, Option.some.injEq, Prod.mk.injEq] at h
    obtain ⟨h1, h2⟩ := h
    subst h1
    subst h2
    exact ⟨rfl, rfl, rfl⟩
  | succ m ih =>
    intro s d r h
    cases s with
    | nil => simp [takeDigits] at h
    | cons c s1 =>
      rw [takeDigits] at h
      split at h
      · next hc =>
        cases ht : takeDigits m s1 with
        | none => rw [ht] at h; simp at h
        | some p =>
          obtain ⟨d1, r1⟩ := p
          rw [ht] at h
          simp only [Option.map_some', Option.some.injEq, Prod.mk.injEq] at h
          obtain ⟨hs, hl, ha⟩ := ih ht
          rw [← h.1, ← h.2]
          refine ⟨by rw [hs]; rfl, by simp [hl], ?_⟩
          simp [List.all_cons, hc, ha]
      · simp at h

theorem takeDigits_complete : ∀ {d : List Char} (r : List Char),
    d.all Char.isDigit = true → takeDigits d.length (d ++ r) = some (d, r) := by
  intro d
  induction d with
  | nil => intro r _; rfl
  | cons c d1 ih =>
    intro r h
    simp only [List.all_cons, Bool.and_eq_true] at h
    show takeDigits (d1.length + 1) (c :: (d1 ++ r)) = some (c :: d1, r)
    rw [takeDigits, if_pos h.1, ih r h.2]
    rfl

theorem takeDigits_none_of_stop : ∀ {d : List Char} {n : Nat} (c : Char) (r : List Char),
    d.all Char.isDigit = true → d.length < n → c.isDigit = false →
    takeDigits n (d ++ c :: r) = none := by
  intro d
  induction d with
  | nil =>
    intro n c r _ hn hc
    cases n with
    | zero => omega
    | succ m =>
      show takeDigits (m + 1) (c :: r) = none
      rw [takeDigits, if_neg (by simp [hc])]
  | cons x d1 ih =>
    intro n c r h hn hc
    simp only [List.all_cons, Bool.and_eq_true] at h
    cases n with
    | zero => omega
    | succ m =>
      show takeDigits (m + 1) (x :: (d1 ++ c :: r)) = none
      rw [takeDigits, if_pos h.1, ih c r h.2 (by simpa using hn) hc]
      rfl

theorem pdfEnd_of_tail {e : List Char} (h : IsPdfTail e) : pdfEnd e = true := by
  rcases h with h | h <;> subst h <;> decide

theorem pdfEnd_sound {e : List Char} (h : pdfEnd e = true) : IsPdfTail e := by
  simp only [pdfEnd, Bool.or_eq_true, decide_eq_true_eq] at h
  exact h

theorem takeWhile_digit_tail {e : List Char} (h : IsPdfTail e) :
    e.takeWhile Char.isDigit = [] := by
  rcases h with h | h <;> subst h <;> decide

theorem dropWhile_digit_tail {e : List Char} (h : IsPdfTail e) :
    e.dropWhile Char.isDigit = e := by
  rcases h with h | h <;> subst h <;> decide

theorem matchTail_complete {vs e : List Char} (hv : IsVSuffix vs) (he : IsPdfTail e) :
    matchTail (vs ++ e) = true := by
  rcases hv with hv | ⟨ds, hne, hall, hv⟩
  · subst hv
    simp [matchTail, pdfEnd_of_tail he]
  · subst hv
    have hall2 : ∀ c ∈ ds, Char.isDigit c = true := List.all_eq_true.mp hall
    have h1 : (ds ++ e).takeWhile Char.isDigit = ds := by
      rw [takeWhile_append_of_all hall2, takeWhile_digit_tail he, List.append_nil]
    have h2 : (ds ++ e).dropWhile Char.isDigit = e := by
      rw [dropWhile_append_of_all hall2, dropWhile_digit_tail he]
    have h3 : ds.isEmpty = false := by
      cases ds with
      | nil => exact absurd rfl hne
      | cons a l => rfl
    have hshape : ('v' :: ds) ++ e = 'v' :: (ds ++ e) := rfl
    rw [hshape]
    simp [matchTail, h1, h2, h3, pdfEnd_of_tail he]

theorem matchTail_sound {s : List Char} (h : matchTail s = true) :
    ∃ vs e, IsVSuffix vs ∧ IsPdfTail e ∧ s = vs ++ e := by
  simp only [matchTail, Bool.or_eq_true] at h
  rcases h with h | h
  · exact ⟨[], s, Or.inl rfl, pdfEnd_sound h, rfl⟩
  · cases s with
    | nil => simp at h
    | cons c r =>
      simp only [Bool.and_eq_true, decide_eq_true_eq] at h
      obtain ⟨⟨hc, hne⟩, hp⟩ := h
      subst hc
      refine ⟨'v' :: r.takeWhile Char.isDigit, r.dropWhile Char.isDigit, ?_, ?_, ?_⟩
      · right
        refine ⟨r.takeWhile Char.isDigit, ?_, ?_, rfl⟩
        · intro hnil
          rw [hnil] at hne
          simp at hne
        · exact List.all_eq_true.mpr (fun c hc => List.mem_takeWhile_imp hc)
      · exact pdfEnd_sound hp
      · rw [List.cons_append, List.takeWhile_append_dropWhile]

theorem matchFour_sound {d1 rest2 g : List Char} (h : matchFour d1 rest2 = some g) :
    ∃ d2 vs e, d2.length = 4 ∧ d2.all Char.isDigit = true ∧ IsVSuffix vs ∧ IsPdfTail e ∧
      rest2 = d2 ++ (vs ++ e) ∧ g = d1 ++ '.' :: d2 := by
  cases ht : takeDigits 4 rest2 with
  | none =>
    rw [matchFour, ht] at h
    have h2 : (none : Option (List Char)) = some g := h
    simp at h2
  | some p =>
    obtain ⟨d2, rest3⟩ := p
    rw [matchFour, ht] at h
    have h0 : (if matchTail rest3 then some (d1 ++ '.' :: d2) else none) = some g := h
    clear h
    rename' h0 => h
    split at h
    · next hmt =>
      simp only [Option.some.injEq] at h
      obtain ⟨hs, hl, ha⟩ := takeDigits_sound ht
      obtain ⟨vs, e, hv, he, h3⟩ := matchTail_sound hmt
      exact ⟨d2, vs, e, hl, ha, hv, he, by rw [hs, h3], h.symm⟩
    · simp at h

theorem matchAt_sound {s g : List Char} (h : matchAt s = some g) : ValidCore s g := by
  rw [matchAt] at h
  cases h1 : takeDigits 4 s with
  | none =>
    rw [h1] at h
    simp at h
  | some p =>
    obtain ⟨d1, rest⟩ := p
    rw [h1] at h
    obtain ⟨hs1, hl1, ha1⟩ := takeDigits_sound h1
    cases rest with
    | nil =>
      have h2 : (none : Option (List Char)) = some g := h
      simp at h2
    | cons c rest2 =>
      have h2 : (if c = '.' then
          (match takeDigits 5 rest2 with
           | some (d2, rest3) =>
             if matchTail rest3 then some (d1 ++ '.' :: d2) else matchFour d1 rest2
           | none => matchFour d1 rest2)
          else none) = some g := h
      by_cases hc : c = '.'
      · subst hc
        rw [if_pos rfl] at h2
        cases h5 : takeDigits 5 rest2 with
        | none =>
          rw [h5] at h2
          obtain ⟨d2, vs, e, hl2, ha2, hv, he, hr, hg⟩ := matchFour_sound h2
          exact ⟨[], d1, d2, vs, e, hl1, ha1, Or.inl hl2, ha2, hv, he,
            by rw [hs1, hr]; simp, hg⟩
        | some p2 =>
          obtain ⟨d2, rest3⟩ := p2
          rw [h5] at h2
          have h3 : (if matchTail rest3 then some (d1 ++ '.' :: d2)
              else matchFour d1 rest2) = some g := h2
          split at h3
          · next hmt =>
            simp only [Option.some.injEq] at h3
            obtain ⟨hs2, hl2, ha2⟩ := takeDigits_sound h5
            obtain ⟨vs, e, hv, he, hre⟩ := matchTail_sound hmt
            exact ⟨[], d1, d2, vs, e, hl1, ha1, Or.inr hl2, ha2, hv, he,
              by rw [hs1, hs2, hre]; simp, h3.symm⟩
          · obtain ⟨d2', vs, e, hl2, ha2, hv, he, hr, hg⟩ := matchFour_sound h3
            exact ⟨[], d1, d2', vs, e, hl1, ha1, Or.inl hl2, ha2, hv, he,
              by rw [hs1, hr]; simp, hg⟩
      · rw [if_neg hc] at h2
        simp at h2

theorem digit_ne_dot {c : Char} (h : c.isDigit = true) : ¬ c = '.' := by
  intro hc
  rw [hc] at h
  simp [Char.isDigit] at h

theorem vsuffix_pdf_head {vs e : List Char} (hv : IsVSuffix vs) (he : IsPdfTail e) :
    ∃ c r, vs ++ e = c :: r ∧ c.isDigit = false := by
  rcases hv with hv | ⟨ds, hne, hall, hv⟩
  · subst hv
    rcases he with h | h <;> subst h
    · exact ⟨'.', _, rfl, rfl⟩
    · exact ⟨'.', _, rfl, rfl⟩
  · subst hv
    exact ⟨'v', _, rfl, rfl⟩

theorem matchFour_complete {d1 d2 vs e : List Char}
    (hl2 : d2.length = 4) (ha2 : d2.all Char.isDigit = true)
    (hv : IsVSuffix vs) (he : IsPdfTail e) :
    matchFour d1 (d2 ++ (vs ++ e)) = some (d1 ++ '.' :: d2) := by
  have h4 : takeDigits 4 (d2 ++ (vs ++ e)) = some (d2, vs ++ e) := by
    have := takeDigits_complete (vs ++ e) ha2
    rwa [hl2] at this
  rw [matchFour, h4]
  show (if matchTail (vs ++ e) then some (d1 ++ '.' :: d2) else none) = some (d1 ++ '.' :: d2)
  rw [if_pos (matchTail_complete hv he)]

theorem matchAt_complete {d1 d2 vs e : List Char}
    (hl1 : d1.length = 4) (ha1 : d1.all Char.isDigit = true)
    (hl2 : d2.length = 4 ∨ d2.length = 5) (ha2 : d2.all Char.isDigit = true)
    (hv : IsVSuffix vs) (he : IsPdfTail e) :
    matchAt (d1 ++ ('.' :: (d2 ++ (vs ++ e)))) = some (d1 ++ '.' :: d2) := by
  have h1 : takeDigits 4 (d1 ++ ('.' :: (d2 ++ (vs ++ e)))) =
      some (d1, '.' :: (d2 ++ (vs ++ e))) := by
    have := takeDigits_complete ('.' :: (d2 ++ (vs ++ e))) ha1
    rwa [hl1] at this
  rw [matchAt, h1]
  show (match takeDigits 5 (d2 ++ (vs ++ e)) with
      | some (p, r3) =>
        if matchTail r3 then some (d1 ++ '.' :: p) else matchFour d1 (d2 ++ (vs ++ e))
      | none => matchFour d1 (d2 ++ (vs ++ e))) = some (d1 ++ '.' :: d2)
  rcases hl2 with hl2 | hl2
  · obtain ⟨c, r, hcr, hcd⟩ := vsuffix_pdf_head hv he
    have h5 : takeDigits 5 (d2 ++ (vs ++ e)) = none := by
      rw [hcr]
      exact takeDigits_none_of_stop c r ha2 (by omega) hcd
    rw [h5]
    exact matchFour_complete hl2 ha2 hv he
  · have h5 : takeDigits 5 (d2 ++ (vs ++ e)) = some (d2, vs ++ e) := by
      have := takeDigits_complete (vs ++ e) ha2
      rwa [hl2] at this
    rw [h5]
    show (if matchTail (vs ++ e) then some (d1 ++ '.' :: d2) else matchFour d1 (d2 ++ (vs ++ e))) =
      some (d1 ++ '.' :: d2)
    rw [if_pos (matchTail_complete hv he)]

theorem validCore_cons (c : Char) {s g : List Char} (h : ValidCore s g) :
    ValidCore (c :: s) g := by
  obtain ⟨pre, d1, d2, vs, e, h1, h2, h3, h4, h5, h6, h7, h8⟩ := h
  exact ⟨c :: pre, d1, d2, vs, e, h1, h2, h3, h4, h5, h6, by rw [h7]; rfl, h8⟩

theorem searchArxiv_sound : ∀ {fn g : List Char}, searchArxiv fn = some g →
    ValidCore fn g := by
  intro fn
  induction fn with
  | nil => intro g h; simp [searchArxiv] at h
  | cons c rest ih =>
    intro g h
    have h2 : (match matchAt (c :: rest) with
        | some g2 => some g2
        | none => searchArxiv rest) = some g := h
    cases hm : matchAt (c :: rest) with
    | some g2 =>
      rw [hm] at h2
      simp only [Option.some.injEq] at h2
      rw [← h2]
      exact matchAt_sound hm
    | none =>
      rw [hm] at h2
      exact validCore_cons c (ih h2)

theorem stripPre_append (p x : List Char) : stripPre p (p ++ x) = some x := by
  have hpre : p.isPrefixOf (p ++ x) = true := by
    rw [List.isPrefixOf_iff_prefix]
    exact List.prefix_append _ _
  rw [stripPre, if_pos hpre, List.drop_left]

theorem revPdf_tail {e : List Char} (he : IsPdfTail e) (x : List Char) :
    revPdf (e.reverse ++ x) = some x := by
  rcases he with h | h <;> subst h
  · show revPdf ('f' :: ("dp.".toList ++ x)) = some x
    rw [revPdf, if_neg (by decide)]
    exact stripPre_append "fdp.".toList x
  · show revPdf ('\n' :: ("fdp.".toList ++ x)) = some x
    rw [revPdf, if_pos rfl]
    exact stripPre_append "fdp.".toList x

theorem coreOfRev_some {t t1 : List Char} (h : revPdf t = some t1) :
    coreOfRev t = coreParse t1 := by
  rw [coreOfRev, h]

theorem coreParse_dot {d2r Y : List Char} (ha : ∀ c ∈ d2r, Char.isDigit c = true) :
    coreParse (d2r ++ ('.' :: Y)) = coreParse2 (d2r ++ ('.' :: Y)) := by
  simp only [coreParse]
  have h1 : (d2r ++ ('.' :: Y)).takeWhile Char.isDigit = d2r := by
    rw [takeWhile_append_of_all ha, List.takeWhile_cons]
    simp
  have h2 : (d2r ++ ('.' :: Y)).drop d2r.length = '.' :: Y := List.drop_left _ _
  rw [h1, h2]
  simp

theorem coreParse_v {dsv Y : List Char} (hne : dsv ≠ [])
    (ha : ∀ c ∈ dsv, Char.isDigit c = true) :
    coreParse (dsv ++ ('v' :: Y)) = coreParse2 Y := by
  simp only [coreParse]
  have h1 : (dsv ++ ('v' :: Y)).takeWhile Char.isDigit = dsv := by
    rw [takeWhile_append_of_all ha, List.takeWhile_cons]
    rw [if_neg (by decide)]
    simp
  have h2 : (dsv ++ ('v' :: Y)).drop dsv.length = 'v' :: Y := List.drop_left _ _
  rw [h1, h2]
  simp [hne]

theorem coreParse2_eval {d1 d2 z : List Char}
    (hl1 : d1.length = 4) (ha1 : d1.all Char.isDigit = true)
    (hl2 : d2.length = 4 ∨ d2.length = 5) (ha2 : d2.all Char.isDigit = true) :
    coreParse2 (d2.reverse ++ ('.' :: (d1.reverse ++ z))) = some (d1 ++ '.' :: d2) := by
  obtain ⟨w1, w2, w3, w4, hd1⟩ := eq_four_of_length hl1
  subst hd1
  simp only [List.all_cons, List.all_nil, Bool.and_eq_true] at ha1
  obtain ⟨hw1, hw2, hw3, hw4, _⟩ := ha1
  rcases hl2 with hl2 | hl2
  · obtain ⟨p, q, r, s0, hd2⟩ := eq_four_of_length hl2
    subst hd2
    simp only [List.all_cons, List.all_nil, Bool.and_eq_true] at ha2
    obtain ⟨hp, hq, hr, hs0, _⟩ := ha2
    show coreParse2 (s0 :: r :: q :: p :: '.' ::
      (w4 :: w3 :: w2 :: w1 :: z)) = some ([w1, w2, w3, w4] ++ '.' :: [p, q, r, s0])
    rw [coreParse2, if_pos rfl, if_pos (by simp [hp, hq, hr, hs0])]
    rw [coreFrom, if_pos (by simp [hw1, hw2, hw3, hw4])]
  · obtain ⟨p, q, r, s0, t5, hd2⟩ := eq_five_of_length hl2
    subst hd2
    simp only [List.all_cons, List.all_nil, Bool.and_eq_true] at ha2
    obtain ⟨hp, hq, hr, hs0, ht5, _⟩ := ha2
    show coreParse2 (t5 :: s0 :: r :: q :: p :: '.' ::
      (w4 :: w3 :: w2 :: w1 :: z)) = some ([w1, w2, w3, w4] ++ '.' :: [p, q, r, s0, t5])
    rw [coreParse2, if_neg (digit_ne_dot hp), if_pos rfl,
      if_pos (by simp [hp, hq, hr, hs0, ht5])]
    rw [coreFrom, if_pos (by simp [hw1, hw2, hw3, hw4])]

theorem valid_core_coreOfRev {fn g : List Char} (h : ValidCore fn g) :
    coreOfRev fn.reverse = some g := by
  obtain ⟨pre, d1, d2, vs, e, hl1, ha1, hl2, ha2, hv, he, hfn, hg⟩ := h
  have hrev : fn.reverse =
      e.reverse ++ (vs.reverse ++ (d2.reverse ++ ('.' :: (d1.reverse ++ pre.reverse)))) := by
    rw [hfn]
    simp
  rw [hrev, coreOfRev_some (revPdf_tail he
    (vs.reverse ++ (d2.reverse ++ ('.' :: (d1.reverse ++ pre.reverse)))))]
  have hd2r : ∀ c ∈ d2.reverse, Char.isDigit c = true := by
    intro c hc
    exact List.all_eq_true.mp ha2 c (List.mem_reverse.mp hc)
  rcases hv with hv | ⟨ds, hne, hall, hv⟩
  · subst hv
    simp only [List.reverse_nil, List.nil_append]
    rw [coreParse_dot hd2r, hg]
    exact coreParse2_eval hl1 ha1 hl2 ha2
  · subst hv
    have hds : ∀ c ∈ ds.reverse, Char.isDigit c = true := by
      intro c hc
      exact List.all_eq_true.mp hall c (List.mem_reverse.mp hc)
    have hsh : ('v' :: ds).reverse ++ (d2.reverse ++ ('.' :: (d1.reverse ++ pre.reverse))) =
        ds.reverse ++ ('v' :: (d2.reverse ++ ('.' :: (d1.reverse ++ pre.reverse)))) := by
      simp
    rw [hsh, coreParse_v (by simp [hne]) hds, hg]
    exact coreParse2_eval hl1 ha1 hl2 ha2

theorem validCore_unique {fn g1 g2 : List Char} (h1 : ValidCore fn g1)
    (h2 : ValidCore fn g2) : g1 = g2 := by
  have e1 := valid_core_coreOfRev h1
  have e2 := valid_core_coreOfRev h2
  rw [e1] at e2
  simpa using e2

theorem searchArxiv_complete : ∀ {fn g : List Char}, ValidCore fn g →
    searchArxiv fn = some g := by
  intro fn
  induction fn with
  | nil =>
    intro g h
    exfalso
    obtain ⟨pre, d1, d2, vs, e, hl1, _, _, _, _, he, hfn, _⟩ := h
    have hlen := congrArg List.length hfn
    rcases he with h | h <;> subst h <;> simp at hlen <;> omega
  | cons c rest ih =>
    intro g h
    have hstep : searchArxiv (c :: rest) =
        (match matchAt (c :: rest) with
         | some g2 => some g2
         | none => searchArxiv rest) := rfl
    rw [hstep]
    cases hm : matchAt (c :: rest) with
    | some g2 =>
      have hvc : ValidCore (c :: rest) g2 := matchAt_sound hm
      rw [validCore_unique h hvc]
    | none =>
      obtain ⟨pre, d1, d2, vs, e, hl1, ha1, hl2, ha2, hv, he, hfn, hg⟩ := h
      cases pre with
      | nil =>
        exfalso
        have hfn2 : c :: rest = d1 ++ ('.' :: (d2 ++ (vs ++ e))) := by
          simpa using hfn
        have hcomp := matchAt_complete hl1 ha1 hl2 ha2 hv he
        rw [← hfn2, hm] at hcomp
        simp at hcomp
      | cons p pre1 =>
        have hfn2 : c :: rest = p :: (pre1 ++ (d1 ++ ('.' :: (d2 ++ (vs ++ e))))) := by
          simpa using hfn
        simp only [List.cons.injEq] at hfn2
        apply ih
        exact ⟨pre1, d1, d2, vs, e, hl1, ha1, hl2, ha2, hv, he, by rw [hfn2.2]; simp, hg⟩

/-- C8 (amended): `extract_arxiv_id` returns `some g` exactly when the
filename decomposes as any prefix, four digits, a dot, four or five
digits, an optional version suffix `v`+digits, and the literal `.pdf`
either at the very end or followed by ONE trailing newline (the `$`
anchor of Python's `re` also matches just before a final newline), with
`g` that digits-dot-digits identifier; the iff in particular forces the
identifier of a matching filename to be unique, and non-matching
filenames to yield `none`. -/
theorem extract_arxiv_id_spec (fn g : List Char) :
    extract_arxiv_id fn = some g ↔ ValidCore fn g := by
  constructor
  · exact searchArxiv_sound
  · exact searchArxiv_complete

/-- C8 counterexample: a filename whose `.pdf` is NOT at the end (it is
followed by a newline) is non-matching under the claim's description,
yet the extractor returns the identifier rather than `None`, because
`$` also matches before a trailing newline. -/
theorem extract_arxiv_id_newline_counterexample :
    extract_arxiv_id "1234.56789.pdf\n".toList = some "1234.56789".toList ∧
      ".pdf".toList.isSuffixOf "1234.56789.pdf\n".toList = false := by
  refine ⟨by decide, by decide⟩
